import Mathlib

/-!
Shallow embedding of the backtesting core of the theme-screening repository
(`src/backtesting.py` and `src/analyzer.py`), with theorems checking the
natural-language specification against it.

Modelling conventions:
* Python floats are modelled as rationals (`ℚ`); Python `int(x)` truncation
  toward zero is `pyInt`.
* Dates are modelled as integers (day numbers); `date - trade.entry_date`
  in the source computes calendar days held, which becomes integer
  subtraction here.
* The `open_positions` dict (symbol → Trade, insertion ordered) is an
  association list; insertion appends at the end, deletion filters the key
  out, mirroring dict insertion order.
* `logger` calls, plotting and I/O are side effects with no bearing on the
  ledger state and are omitted.
-/

namespace ThemeScreening

/-- Python `int(x)` conversion of a rational: truncation toward zero. -/
def pyInt (q : ℚ) : ℤ := if 0 ≤ q then ⌊q⌋ else ⌈q⌉

/-- `BacktestConfig` dataclass (src/backtesting.py, lines 24-36).
Dates are handled outside the per-operation model, so only the numeric
fields appear. Defaults are the dataclass defaults. -/
structure BacktestConfig where
  initial_capital : ℚ := 1000000
  max_positions : ℕ := 5
  position_size : ℚ := 2/10
  commission : ℚ := 1/1000
  slippage : ℚ := 1/1000
  stop_loss : ℚ := 3/100
  take_profit : ℚ := 5/100
  holding_period_limit : ℤ := 5
  deriving Repr, DecidableEq

/-- `Trade` dataclass (src/backtesting.py, lines 39-55). -/
structure Trade where
  symbol : String
  entry_date : ℤ
  exit_date : Option ℤ := none
  entry_price : ℚ := 0
  exit_price : ℚ := 0
  shares : ℤ := 0
  position_value : ℚ := 0
  pnl : ℚ := 0
  pnl_percentage : ℚ := 0
  exit_reason : String := ""
  signals : List String := []
  score : ℚ := 0
  commission_paid : ℚ := 0
  slippage_cost : ℚ := 0
  deriving Repr, DecidableEq

/-- Mutable state of `BacktestEngine` (src/backtesting.py, lines 94-98):
the config, the closed-trade history, the open-position dict and the cash
balance. -/
structure Engine where
  config : BacktestConfig
  trades : List Trade := []
  open_positions : List (String × Trade) := []
  capital : ℚ
  deriving Repr, DecidableEq

/-- `BacktestEngine.can_open_position` (lines 236-238). -/
def can_open_position (e : Engine) : Bool :=
  decide (e.open_positions.length < e.config.max_positions)

/-- `BacktestEngine.calculate_position_size` (lines 240-253):
`shares = int(max_investment / price / 100) * 100; return max(100, shares)`. -/
def calculate_position_size (e : Engine) (price : ℚ) : ℤ :=
  let max_investment := e.capital * e.config.position_size
  let shares := pyInt (max_investment / price / 100) * 100
  max 100 shares

/-- The total cash cost of an entry at `price`: position value at the
slippage-adjusted price plus the commission on it (lines 281-283). -/
def entry_cost (e : Engine) (price : ℚ) : ℚ :=
  let shares := calculate_position_size e price
  let adjusted_price := price * (1 + e.config.slippage)
  let position_value := adjusted_price * (shares : ℚ)
  position_value + position_value * e.config.commission

/-- `BacktestEngine.open_position` (lines 255-305). Returns the Python
bool together with the updated engine state. -/
def open_position (e : Engine) (symbol : String) (date : ℤ) (price : ℚ)
    (signals : List String) (score : ℚ) : Bool × Engine :=
  if can_open_position e = false then (false, e)
  else if (e.open_positions.lookup symbol).isSome then (false, e)
  else
    let shares := calculate_position_size e price
    if shares = 0 then (false, e)
    else
      let adjusted_price := price * (1 + e.config.slippage)
      let position_value := adjusted_price * (shares : ℚ)
      let commission := position_value * e.config.commission
      if e.capital < position_value + commission then (false, e)
      else
        let trade : Trade :=
          { symbol := symbol
            entry_date := date
            entry_price := adjusted_price
            shares := shares
            position_value := position_value
            signals := signals
            score := score
            commission_paid := commission
            slippage_cost := price * (shares : ℚ) * e.config.slippage }
        (true,
          { e with
            open_positions := e.open_positions ++ [(symbol, trade)]
            capital := e.capital - (position_value + commission) })

/-- `BacktestEngine.close_position` (lines 307-340). No-op when the symbol
is not open; otherwise fills the exit fields of the trade, credits cash by
`exit_value - commission`, appends the trade to the history and deletes the
symbol from the open-position dict. -/
def close_position (e : Engine) (symbol : String) (date : ℤ) (price : ℚ)
    (reason : String) : Engine :=
  match e.open_positions.lookup symbol with
  | none => e
  | some trade =>
    let adjusted_price := price * (1 - e.config.slippage)
    let exit_value := adjusted_price * (trade.shares : ℚ)
    let commission := exit_value * e.config.commission
    let closed : Trade :=
      { trade with
        exit_date := some date
        exit_price := adjusted_price
        pnl := exit_value - trade.position_value - commission - trade.commission_paid
        pnl_percentage :=
          (exit_value - trade.position_value - commission - trade.commission_paid)
            / trade.position_value * 100
        exit_reason := reason
        commission_paid := trade.commission_paid + commission
        slippage_cost := trade.slippage_cost + price * (trade.shares : ℚ) * e.config.slippage }
    { e with
      capital := e.capital + (exit_value - commission)
      trades := e.trades ++ [closed]
      open_positions := e.open_positions.filter (fun p => p.1 ≠ symbol) }

/-- A ledger operation: one call to `open_position` or `close_position`.
Used to quantify over arbitrary call sequences. -/
inductive Op where
  | openPos (symbol : String) (date : ℤ) (price : ℚ)
      (signals : List String) (score : ℚ) : Op
  | closePos (symbol : String) (date : ℤ) (price : ℚ) (reason : String) : Op
  deriving Repr, DecidableEq

/-- The quoted price an operation carries. -/
def Op.price : Op → ℚ
  | .openPos _ _ p _ _ => p
  | .closePos _ _ p _ => p

/-- Apply one operation to the engine state (the bool result of
`open_position` is discarded, as callers in the source may do). -/
def applyOp (e : Engine) : Op → Engine
  | .openPos s d p sg sc => (open_position e s d p sg sc).2
  | .closePos s d p r => close_position e s d p r

/-- Run a sequence of ledger operations. -/
def runOps (e : Engine) (ops : List Op) : Engine := ops.foldl applyOp e

/-- One screening result row (src/backtesting.py, lines 217-224):
symbol, date, price, score, signals. -/
structure Candidate where
  symbol : String
  date : ℤ
  price : ℚ
  score : ℚ
  signals : List String
  deriving Repr, DecidableEq

/-- Stable insertion of a candidate into a list already sorted by
descending score: the new element goes before the first element whose
score is ≤ its own, so elements it preceded in the input keep their
relative order. -/
def insertByScore (c : Candidate) : List Candidate → List Candidate
  | [] => [c]
  | d :: ds => if c.score < d.score then d :: insertByScore c ds else c :: d :: ds

/-- `results.sort(key=lambda x: x['score'], reverse=True)`
(src/backtesting.py, line 232): Python's stable sort, descending by
score only — equal scores keep their input order. -/
def sortCandidates : List Candidate → List Candidate
  | [] => []
  | c :: cs => insertByScore c (sortCandidates cs)

/-- The entry loop of `BacktestEngine.process_day` (lines 385-398): walk
the screening results in rank order; stop when capacity is full; skip
symbols already open; attempt `open_position` only when score ≥ 70; a
failed open is skipped, never retried. -/
def entryLoop (e : Engine) : List Candidate → Engine
  | [] => e
  | r :: rs =>
    if can_open_position e = false then e
    else if (e.open_positions.lookup r.symbol).isSome then entryLoop e rs
    else if 70 ≤ r.score then
      entryLoop (open_position e r.symbol r.date r.price r.signals r.score).2 rs
    else entryLoop e rs

/-- The entry phase of `process_day` (lines 381-398): screening is run and
the entry loop entered only when capacity is available. -/
def entryPhase (e : Engine) (results : List Candidate) : Engine :=
  if can_open_position e then entryLoop e results else e

/-- The per-position exit decision of `process_day` (lines 363-375):
take-profit checked first, then stop-loss, then the holding-period limit;
the checks run only when `entry_price > 0`. -/
def exitReason (cfg : BacktestConfig) (entry_price current_price : ℚ)
    (days_held : ℤ) : Option String :=
  if 0 < entry_price then
    let return_pct := (current_price - entry_price) / entry_price
    if cfg.take_profit ≤ return_pct then some "take_profit"
    else if return_pct ≤ -cfg.stop_loss then some "stop_loss"
    else if cfg.holding_period_limit ≤ days_held then some "time_limit"
    else none
  else none

/-- The exit phase of `process_day` (lines 351-379): collect the marked
positions (skipping symbols with no price data for the day), then close
each with its triggering reason. -/
def exitPhase (e : Engine) (date : ℤ) (prices : String → Option ℚ) : Engine :=
  let positions_to_close : List (String × ℚ × String) :=
    e.open_positions.filterMap (fun st =>
      match prices st.1 with
      | none => none
      | some cp =>
        match exitReason e.config st.2.entry_price cp (date - st.2.entry_date) with
        | some r => some (st.1, cp, r)
        | none => none)
  positions_to_close.foldl (fun acc x => close_position acc x.1 date x.2.1 x.2.2) e

/-- `BacktestEngine.process_day` (lines 342-398), restricted to the ledger:
the exit phase runs first, then the entry phase over that day's screening
results (the daily-equity append does not touch the ledger fields the
claims are about). -/
def processDay (e : Engine) (date : ℤ) (prices : String → Option ℚ)
    (results : List Candidate) : Engine :=
  entryPhase (exitPhase e date prices) results

/-- The forced-liquidation loop at the end of `BacktestEngine.run`
(lines 451-458): iterate over a snapshot of the open positions; when a
final price is available, close at it with reason `backtest_end`;
positions with no data are left untouched. -/
def finalLiquidation (e : Engine) (end_date : ℤ)
    (finalPrice : String → Option ℚ) : Engine :=
  e.open_positions.foldl (fun acc st =>
    match finalPrice st.1 with
    | some p => close_position acc st.1 end_date p "backtest_end"
    | none => acc) e

/-- The liquidation loop of `run`, generalized to an arbitrary snapshot
list `l` of positions to visit (the source iterates over
`list(self.open_positions.items())`, a snapshot taken before any close). -/
def liquidateFrom (d : ℤ) (f : String → Option ℚ) (e : Engine)
    (l : List (String × Trade)) : Engine :=
  l.foldl (fun acc st =>
    match f st.1 with
    | some p => close_position acc st.1 d p "backtest_end"
    | none => acc) e

/-! ### Scoring engine (src/analyzer.py) -/

/-- The scoring weights, with the defaults the source supplies to every
`self.scoring_weights.get(key, default)` call. -/
structure ScoringWeights where
  volume_surge : ℚ := 30
  gap_up_extreme : ℚ := -10
  gap_up_high : ℚ := 10
  gap_up_moderate : ℚ := 20
  ma5_breakout : ℚ := 15
  ma25_breakout : ℚ := 20
  lower_shadow : ℚ := 10
  high_close : ℚ := 10
  resistance_break : ℚ := 15
  positive_news : ℚ := 25
  sector_momentum : ℚ := 10
  deriving Repr, DecidableEq

/-- The fields of a `stock_data` snapshot that `calculate_score` reads,
with the defaults of the corresponding `stock_data.get` /
`technical.get` calls. `news_sentiments` lists the `sentiment` field of
each news item. -/
structure StockSnapshot where
  volume_ratio : ℚ := 1
  gap_ratio : ℚ := 0
  position_vs_sma5 : ℚ := 0
  position_vs_sma25 : ℚ := 0
  candlestick_pattern : String := ""
  current_price : ℚ := 0
  resistance_levels : List ℚ := []
  news_sentiments : List String := []
  sector_performance : ℚ := 0
  deriving Repr, DecidableEq

/-- `StockAnalyzer._calculate_volume_score` (src/analyzer.py, lines 282-293). -/
def calculate_volume_score (w : ScoringWeights) (s : StockSnapshot) : ℚ :=
  if 3 ≤ s.volume_ratio then w.volume_surge
  else if 2 ≤ s.volume_ratio then w.volume_surge * (8/10)
  else if 3/2 ≤ s.volume_ratio then w.volume_surge * (5/10)
  else 0

/-- `StockAnalyzer._calculate_gap_score` (src/analyzer.py, lines 295-306). -/
def calculate_gap_score (w : ScoringWeights) (s : StockSnapshot) : ℚ :=
  if 10/100 < s.gap_ratio then w.gap_up_extreme
  else if 5/100 < s.gap_ratio then w.gap_up_high
  else if 2/100 ≤ s.gap_ratio then w.gap_up_moderate
  else 0

/-- `StockAnalyzer._calculate_technical_score` (src/analyzer.py,
lines 308-333), written as the sum of its four incremental additions. -/
def calculate_technical_score (w : ScoringWeights) (s : StockSnapshot) : ℚ :=
  (if 0 < s.position_vs_sma5 then w.ma5_breakout else 0)
  + (if 0 < s.position_vs_sma25 then w.ma25_breakout else 0)
  + (if s.candlestick_pattern = "lower_shadow" then w.lower_shadow
     else if s.candlestick_pattern = "high_close" then w.high_close
     else 0)
  + (match s.resistance_levels with
     | [] => 0
     | r :: rs =>
       if (rs.foldl min r) * (1005/1000) < s.current_price
       then w.resistance_break else 0)

/-- `StockAnalyzer._calculate_news_score` (src/analyzer.py, lines 335-344):
one `positive_news` weight per positive item, capped at one weight. -/
def calculate_news_score (w : ScoringWeights) (s : StockSnapshot) : ℚ :=
  min (((s.news_sentiments.filter (fun x => x = "positive")).length : ℚ)
        * w.positive_news)
      w.positive_news

/-- `StockAnalyzer._calculate_social_score` (src/analyzer.py,
lines 346-349): always 0 in the source. -/
def calculate_social_score (_s : StockSnapshot) : ℚ := 0

/-- `StockAnalyzer._calculate_sector_score` (src/analyzer.py, lines 351-359). -/
def calculate_sector_score (w : ScoringWeights) (s : StockSnapshot) : ℚ :=
  if 2/100 < s.sector_performance then w.sector_momentum else 0

/-- The `total_score` of `StockAnalyzer.calculate_score` (src/analyzer.py,
lines 51-61): the plain sum of the six bucket scores, clamped to
`[0, 100]` by `max(0, min(100, total_score))`. The source then rounds the
reported value to two decimals, which does not affect the claims here. -/
def calculate_score (w : ScoringWeights) (s : StockSnapshot) : ℚ :=
  max 0 (min 100
    (calculate_volume_score w s
      + calculate_gap_score w s
      + calculate_technical_score w s
      + calculate_news_score w s
      + calculate_social_score s
      + calculate_sector_score w s))

/-! ### Result aggregation (src/backtesting.py, calculate_results) -/

/-- The winning trades of `calculate_results` (line 516): `pnl > 0`. -/
def winningTrades (trades : List Trade) : List Trade :=
  trades.filter (fun t => 0 < t.pnl)

/-- The losing trades of `calculate_results` (line 517): `pnl < 0`. -/
def losingTrades (trades : List Trade) : List Trade :=
  trades.filter (fun t => t.pnl < 0)

/-- `result.win_rate` (lines 514-521): set only when the trade list is
non-empty, otherwise it keeps its dataclass default 0. -/
def win_rate (trades : List Trade) : ℚ :=
  if trades.isEmpty then 0
  else ((winningTrades trades).length : ℚ) / (trades.length : ℚ) * 100

/-- `result.profit_factor` (lines 531-535): set only when the absolute sum
of losing pnl is positive, otherwise it keeps its dataclass default 0. -/
def profit_factor (trades : List Trade) : ℚ :=
  let total_wins := ((winningTrades trades).map Trade.pnl).sum
  let total_losses := |((losingTrades trades).map Trade.pnl).sum|
  if 0 < total_losses then total_wins / total_losses else 0

/-- `result.sharpe_ratio` (lines 498-504): set to
`annualized_return / volatility` only when `volatility > 0`, otherwise it
keeps its dataclass default 0. The source computes `volatility` as an
annualized standard deviation (irrational in general), so it enters this
model as a parameter. -/
def sharpeOf (annualized_return volatility : ℚ) : ℚ :=
  if 0 < volatility then annualized_return / volatility else 0

/-! ### Concrete instances used as test inputs -/

/-- Scenario 4 of the spec: default config, capital 1000. -/
def engineSmall : Engine := { config := {}, capital := 1000 }

/-- Default config with the default initial capital in cash. -/
def engineMain : Engine := { config := {}, capital := 1000000 }

/-- A sample open trade (entered at quoted price 1000 with default
slippage, one lot, score 80). -/
def sampleTrade : Trade :=
  { symbol := "7203.T", entry_date := 0, entry_price := 1001, shares := 100
    position_value := 100100, score := 80, commission_paid := 1001/10
    slippage_cost := 100 }

/-- An engine holding `sampleTrade` open. -/
def engineWithPos : Engine :=
  { config := {}, capital := 100000
    open_positions := [("7203.T", sampleTrade)] }

/-- A candidate whose symbol is lexically larger, listed first. -/
def candLate : Candidate :=
  { symbol := "9984.T", date := 0, price := 1200, score := 80, signals := [] }

/-- A candidate with the same score whose symbol is lexically smaller,
listed second. -/
def candEarly : Candidate :=
  { symbol := "6098.T", date := 0, price := 1500, score := 80, signals := [] }

/-- The default scoring weights (every `scoring_weights.get` fallback). -/
def defaultWeights : ScoringWeights := {}

/-- A well-formed but featureless snapshot: every field at its source
default (volume ratio 1, gap 0, no technicals, no news, flat sector). -/
def neutralSnapshot : StockSnapshot := {}

/-- A snapshot with a 3% gap and nothing else. -/
def gapSnapshot : StockSnapshot := { gap_ratio := 3/100 }

/-! ## Theorems -/

/-! ### Helper lemmas about the association-list dict and the ledger -/

lemma one_lot_le_position_size (e : Engine) (p : ℚ) :
    100 ≤ calculate_position_size e p :=
  le_max_left _ _

lemma lookup_mem : ∀ {l : List (String × Trade)} {k : String} {v : Trade},
    l.lookup k = some v → (k, v) ∈ l := by
  intro l
  induction l with
  | nil => intro k v h; simp [List.lookup] at h
  | cons a t ih =>
    intro k v h
    obtain ⟨ka, va⟩ := a
    by_cases hk : (k == ka) = true
    · simp [List.lookup, hk] at h
      exact List.mem_cons.2 (Or.inl (by rw [eq_of_beq hk, h]))
    · simp [List.lookup, hk] at h
      exact List.mem_cons.2 (Or.inr (ih h))

lemma lookup_none_keys {l : List (String × Trade)} {k : String}
    (h : l.lookup k = none) : k ∉ l.map Prod.fst := by
  intro hm
  rcases List.mem_map.1 hm with ⟨⟨a, b⟩, hab, hfst⟩
  simp only [List.lookup_eq_none_iff] at h
  exact absurd (beq_iff_eq.2 hfst.symm) (by simpa using h (a, b) hab)

lemma mem_lookup_of_nodup : ∀ {l : List (String × Trade)},
    (l.map Prod.fst).Nodup → ∀ {k : String} {v : Trade},
    (k, v) ∈ l → l.lookup k = some v := by
  intro l
  induction l with
  | nil => intro _ k v hm; simp at hm
  | cons a t ih =>
    intro hn k v hm
    obtain ⟨ka, va⟩ := a
    rw [List.map_cons, List.nodup_cons] at hn
    rcases List.mem_cons.1 hm with h1 | h1
    · obtain ⟨hk, hv⟩ := Prod.mk.injEq .. ▸ h1
      simp [List.lookup, hk, hv]
    · by_cases hk : (k == ka) = true
      · exfalso
        exact hn.1 (eq_of_beq hk ▸ List.mem_map.2 ⟨(k, v), h1, rfl⟩)
      · simp [List.lookup, hk]
        exact ih hn.2 h1

lemma open_position_config (e : Engine) (s : String) (d : ℤ) (p : ℚ)
    (sg : List String) (sc : ℚ) :
    (open_position e s d p sg sc).2.config = e.config := by
  simp only [open_position]
  split_ifs <;> rfl

lemma close_position_config (e : Engine) (s : String) (d : ℤ) (p : ℚ)
    (r : String) : (close_position e s d p r).config = e.config := by
  simp only [close_position]
  split <;> rfl

lemma applyOp_config (e : Engine) (op : Op) :
    (applyOp e op).config = e.config := by
  cases op with
  | openPos s d p sg sc => exact open_position_config e s d p sg sc
  | closePos s d p r => exact close_position_config e s d p r

lemma open_position_inv (e : Engine) (s : String) (d : ℤ) (p : ℚ)
    (sg : List String) (sc : ℚ)
    (h0 : 0 ≤ e.capital)
    (hsh : ∀ st ∈ e.open_positions, 0 ≤ st.2.shares) :
    0 ≤ (open_position e s d p sg sc).2.capital ∧
    ∀ st ∈ (open_position e s d p sg sc).2.open_positions, 0 ≤ st.2.shares := by
  simp only [open_position]
  split_ifs with h1 h2 h3 h4
  · exact ⟨h0, hsh⟩
  · exact ⟨h0, hsh⟩
  · exact ⟨h0, hsh⟩
  · exact ⟨h0, hsh⟩
  · constructor
    · simp only []
      push_neg at h4
      linarith
    · intro st hst
      rcases List.mem_append.1 hst with hm | hm
      · exact hsh st hm
      · rw [List.mem_singleton] at hm
        subst hm
        simpa using le_trans (by norm_num) (one_lot_le_position_size e p)

lemma close_position_inv (e : Engine) (s : String) (d : ℤ) (p : ℚ) (r : String)
    (hs1 : e.config.slippage ≤ 1) (hc1 : e.config.commission ≤ 1)
    (hp : 0 ≤ p)
    (hsh : ∀ st ∈ e.open_positions, 0 ≤ st.2.shares) :
    e.capital ≤ (close_position e s d p r).capital ∧
    ∀ st ∈ (close_position e s d p r).open_positions, 0 ≤ st.2.shares := by
  simp only [close_position]
  split
  · exact ⟨le_refl _, hsh⟩
  · next t hl =>
    have ht : (s, t) ∈ e.open_positions := lookup_mem hl
    have hts : (0 : ℚ) ≤ (t.shares : ℚ) := by exact_mod_cast hsh _ ht
    constructor
    · simp only []
      have hev : 0 ≤ p * (1 - e.config.slippage) * (t.shares : ℚ) :=
        mul_nonneg (mul_nonneg hp (by linarith)) hts
      nlinarith [mul_nonneg hev (show (0:ℚ) ≤ 1 - e.config.commission by linarith)]
    · intro st hst
      exact hsh st (List.mem_filter.1 hst).1

lemma applyOp_inv (e : Engine) (op : Op)
    (hs1 : e.config.slippage ≤ 1) (hc1 : e.config.commission ≤ 1)
    (hp : 0 ≤ op.price)
    (h0 : 0 ≤ e.capital)
    (hsh : ∀ st ∈ e.open_positions, 0 ≤ st.2.shares) :
    0 ≤ (applyOp e op).capital ∧
    ∀ st ∈ (applyOp e op).open_positions, 0 ≤ st.2.shares := by
  cases op with
  | openPos s d p sg sc => exact open_position_inv e s d p sg sc h0 hsh
  | closePos s d p r =>
    have h := close_position_inv e s d p r hs1 hc1 hp hsh
    exact ⟨le_trans h0 h.1, h.2⟩

lemma runOps_inv (ops : List Op) : ∀ (e : Engine),
    e.config.slippage ≤ 1 → e.config.commission ≤ 1 →
    (∀ op ∈ ops, 0 ≤ op.price) → 0 ≤ e.capital →
    (∀ st ∈ e.open_positions, 0 ≤ st.2.shares) →
    (runOps e ops).config = e.config ∧ 0 ≤ (runOps e ops).capital ∧
    ∀ st ∈ (runOps e ops).open_positions, 0 ≤ st.2.shares := by
  induction ops with
  | nil => intro e _ _ _ h0 hsh; exact ⟨rfl, h0, hsh⟩
  | cons op rest ih =>
    intro e hs1 hc1 hp h0 hsh
    have hstep := applyOp_inv e op hs1 hc1 (hp op (List.mem_cons_self op rest)) h0 hsh
    have hconf := applyOp_config e op
    have hrest := ih (applyOp e op) (hconf ▸ hs1) (hconf ▸ hc1)
      (fun o ho => hp o (List.mem_cons_of_mem op ho)) hstep.1 hstep.2
    exact ⟨hconf ▸ hrest.1, hrest.2⟩

lemma open_position_keys (e : Engine) (s : String) (d : ℤ) (p : ℚ)
    (sg : List String) (sc : ℚ)
    (h : (e.open_positions.map Prod.fst).Nodup) :
    ((open_position e s d p sg sc).2.open_positions.map Prod.fst).Nodup := by
  simp only [open_position]
  split_ifs with h1 h2 h3 h4
  · exact h
  · exact h
  · exact h
  · exact h
  · have hnone : e.open_positions.lookup s = none :=
      Option.not_isSome_iff_eq_none.1 h2
    have hnk : s ∉ e.open_positions.map Prod.fst := lookup_none_keys hnone
    simp only [List.map_append, List.map_cons, List.map_nil]
    rw [List.nodup_append]
    exact ⟨h, List.nodup_singleton s, by simpa using hnk⟩

lemma close_position_keys (e : Engine) (s : String) (d : ℤ) (p : ℚ)
    (r : String) (h : (e.open_positions.map Prod.fst).Nodup) :
    ((close_position e s d p r).open_positions.map Prod.fst).Nodup := by
  simp only [close_position]
  split
  · exact h
  · exact ((List.filter_sublist _).map Prod.fst).nodup h

lemma runOps_keys (ops : List Op) : ∀ (e : Engine),
    (e.open_positions.map Prod.fst).Nodup →
    ((runOps e ops).open_positions.map Prod.fst).Nodup := by
  induction ops with
  | nil => intro e h; exact h
  | cons op rest ih =>
    intro e h
    refine ih (applyOp e op) ?_
    cases op with
    | openPos s d p sg sc => exact open_position_keys e s d p sg sc h
    | closePos s d p r => exact close_position_keys e s d p r h

lemma countP_keys_le_one : ∀ {l : List (String × Trade)},
    (l.map Prod.fst).Nodup → ∀ (sym : String),
    l.countP (fun st => st.1 == sym) ≤ 1 := by
  intro l
  induction l with
  | nil => intro _ sym; simp
  | cons a t ih =>
    intro hn sym
    rw [List.map_cons, List.nodup_cons] at hn
    rw [List.countP_cons]
    by_cases ha : (a.1 == sym) = true
    · have hz : t.countP (fun st => st.1 == sym) = 0 := by
        rw [List.countP_eq_zero]
        intro st hst hbeq
        exact hn.1 (List.mem_map.2 ⟨st, hst,
          (eq_of_beq hbeq).trans (eq_of_beq ha).symm⟩)
      simp [ha, hz]
    · have hz : (if a.1 == sym then 1 else 0) = 0 := by simp [ha]
      rw [hz]
      simpa using ih hn.2 sym

/-- Claim C1 (amended). `calculate_position_size` never returns 0: its result
is always at least one lot (100 shares). For `p > 0` it returns the
claimed `floor((C × position_size_fraction) / p / 100) × 100` exactly when
that lot count is at least one (i.e. when the capital fraction covers one
lot at price `p`), and it returns 100 — not 0 — when the capital fraction
is insufficient for one lot. -/
theorem calculate_position_size_spec (e : Engine) (p : ℚ) :
    100 ≤ calculate_position_size e p ∧
    (0 < p →
      (100 * p ≤ e.capital * e.config.position_size →
        calculate_position_size e p
          = pyInt (e.capital * e.config.position_size / p / 100) * 100) ∧
      (e.capital * e.config.position_size < 100 * p →
        calculate_position_size e p = 100)) := by
  constructor
  · exact le_max_left _ _
  · intro hp
    have hp100 : (0 : ℚ) < p * 100 := by positivity
    have hq : e.capital * e.config.position_size / p / 100
        = e.capital * e.config.position_size / (p * 100) := by
      rw [div_div]
    have hdef : calculate_position_size e p
        = max 100 (pyInt (e.capital * e.config.position_size / p / 100) * 100) := rfl
    constructor
    · intro hle
      have h1 : (1 : ℚ) ≤ e.capital * e.config.position_size / (p * 100) := by
        rw [one_le_div hp100]
        linarith
      have hq0 : (0 : ℚ) ≤ e.capital * e.config.position_size / p / 100 := by
        rw [hq]; linarith
      have hpy : pyInt (e.capital * e.config.position_size / p / 100)
          = ⌊e.capital * e.config.position_size / p / 100⌋ := by
        unfold pyInt; rw [if_pos hq0]
      have hfl : (1 : ℤ) ≤ ⌊e.capital * e.config.position_size / p / 100⌋ := by
        rw [Int.le_floor, hq]; exact_mod_cast h1
      rw [hdef, hpy]
      exact max_eq_right (by linarith)
    · intro hlt
      have h1 : e.capital * e.config.position_size / (p * 100) < 1 := by
        rw [div_lt_one hp100]
        linarith
      have hshares : pyInt (e.capital * e.config.position_size / p / 100) ≤ 0 := by
        unfold pyInt
        split_ifs with h0
        · have : ⌊e.capital * e.config.position_size / p / 100⌋ < 1 := by
            rw [Int.floor_lt, hq]; exact_mod_cast h1
          omega
        · have hneg : e.capital * e.config.position_size / p / 100 ≤ 0 :=
            le_of_not_le h0
          rwa [Int.ceil_le, Int.cast_zero]
      rw [hdef]
      exact max_eq_left (by linarith)

/-- Claim C1 witness: with the default config and capital 1,000,000 at price
1000, the fraction covers one lot and the function returns exactly the
floored lot formula. -/
theorem calculate_position_size_spec_witness :
    calculate_position_size engineMain 1000
      = pyInt (engineMain.capital * engineMain.config.position_size / 1000 / 100) * 100 :=
  ((calculate_position_size_spec engineMain 1000).2 (by norm_num)).1
    (by norm_num [engineMain])

/-- Claim C1 counterexample: Scenario 4 (capital 1000, fraction 0.2, price
1000). The claimed formula `floor((C × fraction) / p / 100) × 100` gives 0,
but `calculate_position_size` returns 100, so it does not return 0 when the
capital fraction is insufficient for one lot. -/
theorem calculate_position_size_cx :
    calculate_position_size engineSmall 1000 = 100 ∧
    pyInt (engineSmall.capital * engineSmall.config.position_size / 1000 / 100) * 100 = 0 ∧
    calculate_position_size engineSmall 1000 ≠ 0 := by
  refine ⟨?_, ?_, ?_⟩ <;>
    norm_num [calculate_position_size, engineSmall, pyInt]

/-- Claim C2. `open_position` returns `false` and leaves the engine state
(cash, trade history and open positions) unchanged whenever capacity is
full, the symbol is already open, the computed share count is 0, or the
entry cost (position value plus commission) exceeds available cash; and
whenever it returns `false` the state is unchanged, so it mutates the
ledger only when it returns `true`. -/
theorem open_position_guards (e : Engine) (s : String) (d : ℤ) (p : ℚ)
    (sg : List String) (sc : ℚ) :
    (can_open_position e = false ∨ (e.open_positions.lookup s).isSome = true
        ∨ calculate_position_size e p = 0 ∨ e.capital < entry_cost e p →
      open_position e s d p sg sc = (false, e)) ∧
    ((open_position e s d p sg sc).1 = false →
      (open_position e s d p sg sc).2 = e) := by
  simp only [open_position, entry_cost]
  split_ifs with h1 h2 h3 h4 <;> simp_all

/-- Claim C2 witness: Scenario 4 — with capital 1000 the entry cost of one
lot at price 1000 exceeds cash, so the open fails and the ledger is
unchanged. -/
theorem open_position_guards_witness :
    open_position engineSmall "7203.T" 0 1000 [] 80 = (false, engineSmall) :=
  (open_position_guards engineSmall "7203.T" 0 1000 [] 80).1
    (Or.inr (Or.inr (Or.inr
      (by norm_num [engineSmall, entry_cost, calculate_position_size, pyInt]))))

/-- Claim C3. Starting from a non-negative cash balance (with every open
trade holding a non-negative share count, as every trade opened by the
engine does), cash stays non-negative under any sequence of
`open_position` / `close_position` calls with non-negative quoted prices
and the configured cost rates at most 1; moreover a further exit from the
reached state credits a non-negative amount (it never decreases cash). -/
theorem cash_never_negative (ops : List Op) (e : Engine)
    (hs1 : e.config.slippage ≤ 1) (hc1 : e.config.commission ≤ 1)
    (hp : ∀ op ∈ ops, 0 ≤ op.price)
    (h0 : 0 ≤ e.capital)
    (hsh : ∀ st ∈ e.open_positions, 0 ≤ st.2.shares)
    (s : String) (dt : ℤ) (p : ℚ) (r : String) (hpr : 0 ≤ p) :
    0 ≤ (runOps e ops).capital ∧
    (runOps e ops).capital ≤ (close_position (runOps e ops) s dt p r).capital := by
  have h := runOps_inv ops e hs1 hc1 hp h0 hsh
  refine ⟨h.2.1, ?_⟩
  exact (close_position_inv (runOps e ops) s dt p r
    (h.1 ▸ hs1) (h.1 ▸ hc1) hpr h.2.2).1

/-- Claim C3 witness: one concrete open at price 1000 from the default
initial capital, then a close at price 1050: cash is non-negative and the
exit does not decrease it. -/
theorem cash_never_negative_witness :
    0 ≤ (runOps engineMain [Op.openPos "7203.T" 0 1000 [] 80]).capital ∧
    (runOps engineMain [Op.openPos "7203.T" 0 1000 [] 80]).capital ≤
      (close_position (runOps engineMain [Op.openPos "7203.T" 0 1000 [] 80])
        "7203.T" 1 1050 "take_profit").capital :=
  cash_never_negative [Op.openPos "7203.T" 0 1000 [] 80] engineMain
    (by norm_num [engineMain]) (by norm_num [engineMain])
    (by intro op hop
        rw [List.mem_singleton] at hop
        subst hop
        norm_num [Op.price])
    (by norm_num [engineMain]) (by simp [engineMain])
    "7203.T" 1 1050 "take_profit" (by norm_num)

/-- Claim C4. Starting from any state whose open-position dict has distinct
keys (in particular the initial empty state), every sequence of
`open_position` / `close_position` calls preserves that distinctness, so
`open_positions` holds at most one open trade per symbol at every point. -/
theorem no_double_position (ops : List Op) (e : Engine)
    (h : (e.open_positions.map Prod.fst).Nodup) (sym : String) :
    ((runOps e ops).open_positions.map Prod.fst).Nodup ∧
    (runOps e ops).open_positions.countP (fun st => st.1 == sym) ≤ 1 := by
  have hn := runOps_keys ops e h
  exact ⟨hn, countP_keys_le_one hn sym⟩

/-- Claim C4 witness: two successive opens of the same symbol from the
empty initial state leave at most one open position for it. -/
theorem no_double_position_witness :
    (((runOps engineMain
        [Op.openPos "7203.T" 0 1000 [] 80, Op.openPos "7203.T" 0 1000 [] 80])
      ).open_positions.map Prod.fst).Nodup ∧
    ((runOps engineMain
        [Op.openPos "7203.T" 0 1000 [] 80, Op.openPos "7203.T" 0 1000 [] 80])
      ).open_positions.countP (fun st => st.1 == "7203.T") ≤ 1 :=
  no_double_position
    [Op.openPos "7203.T" 0 1000 [] 80, Op.openPos "7203.T" 0 1000 [] 80]
    engineMain (by simp [engineMain]) "7203.T"

/-- Claim C5 (amended). The total score is the clamp to `[0, 100]` of the
plain sum of the six weighted per-bucket contributions — there is no
base-score term of 50 — and the result always lies in `[0, 100]`. -/
theorem calculate_score_clamped_sum (w : ScoringWeights) (s : StockSnapshot) :
    calculate_score w s
      = max 0 (min 100
          (calculate_volume_score w s + calculate_gap_score w s
            + calculate_technical_score w s + calculate_news_score w s
            + calculate_social_score s + calculate_sector_score w s)) ∧
    0 ≤ calculate_score w s ∧ calculate_score w s ≤ 100 := by
  refine ⟨rfl, le_max_left _ _, ?_⟩
  exact max_le (by norm_num) (min_le_left _ _)

/-- Claim C5 counterexample: a well-formed featureless snapshot has every
bucket contribution equal to 0 and total score 0, whereas a base score of
50 plus zero contributions, clamped to `[0, 100]`, would be 50. -/
theorem calculate_score_no_base_cx :
    calculate_score defaultWeights neutralSnapshot = 0 ∧
    calculate_volume_score defaultWeights neutralSnapshot = 0 ∧
    calculate_gap_score defaultWeights neutralSnapshot = 0 ∧
    calculate_technical_score defaultWeights neutralSnapshot = 0 ∧
    calculate_news_score defaultWeights neutralSnapshot = 0 ∧
    calculate_social_score neutralSnapshot = 0 ∧
    calculate_sector_score defaultWeights neutralSnapshot = 0 ∧
    max 0 (min 100 ((50 : ℚ) + 0 + 0 + 0 + 0 + 0 + 0)) = 50 ∧
    calculate_score defaultWeights neutralSnapshot ≠ 50 := by
  have h1 : (("" : String) = "lower_shadow") = False := eq_false (by decide)
  have h2 : (("" : String) = "high_close") = False := eq_false (by decide)
  have hv : calculate_volume_score defaultWeights neutralSnapshot = 0 := by
    norm_num [calculate_volume_score, defaultWeights, neutralSnapshot]
  have hg : calculate_gap_score defaultWeights neutralSnapshot = 0 := by
    norm_num [calculate_gap_score, defaultWeights, neutralSnapshot]
  have ht : calculate_technical_score defaultWeights neutralSnapshot = 0 := by
    simp [calculate_technical_score, defaultWeights, neutralSnapshot, h1, h2]
  have hn : calculate_news_score defaultWeights neutralSnapshot = 0 := by
    simp [calculate_news_score, defaultWeights, neutralSnapshot]
  have hso : calculate_social_score neutralSnapshot = 0 := rfl
  have hsec : calculate_sector_score defaultWeights neutralSnapshot = 0 := by
    norm_num [calculate_sector_score, defaultWeights, neutralSnapshot]
  have htotal : calculate_score defaultWeights neutralSnapshot = 0 := by
    unfold calculate_score
    rw [hv, hg, ht, hn, hso, hsec]
    norm_num
  refine ⟨htotal, hv, hg, ht, hn, hso, hsec, by norm_num, ?_⟩
  rw [htotal]
  norm_num

/-- Claim C6. Under the default weights, the gap contribution is an
inverted U in the gap ratio: a moderate gap (2-5%) contributes 20 (the
highest), a gap in (5%, 10%] contributes 10 (a smaller positive amount),
a gap above 10% contributes −10 (a penalty), and a gap below 2%
contributes 0. -/
theorem gap_score_inverted_u (s : StockSnapshot) :
    (2/100 ≤ s.gap_ratio ∧ s.gap_ratio ≤ 5/100 →
      calculate_gap_score defaultWeights s = 20) ∧
    (5/100 < s.gap_ratio ∧ s.gap_ratio ≤ 10/100 →
      calculate_gap_score defaultWeights s = 10) ∧
    (10/100 < s.gap_ratio → calculate_gap_score defaultWeights s = -10) ∧
    (s.gap_ratio < 2/100 → calculate_gap_score defaultWeights s = 0) := by
  refine ⟨fun h => ?_, fun h => ?_, fun h => ?_, fun h => ?_⟩ <;>
    simp only [calculate_gap_score]
  · rw [if_neg (by linarith [h.2]), if_neg (by linarith [h.2]), if_pos h.1]
    rfl
  · rw [if_neg (by linarith [h.2]), if_pos h.1]
    rfl
  · rw [if_pos h]
    rfl
  · rw [if_neg (by linarith), if_neg (by linarith), if_neg (by linarith)]

/-- Claim C6 witness: a 3% gap falls in the moderate band and contributes
the full moderate weight 20. -/
theorem gap_score_inverted_u_witness :
    calculate_gap_score defaultWeights gapSnapshot = 20 :=
  (gap_score_inverted_u gapSnapshot).1
    ⟨by norm_num [gapSnapshot], by norm_num [gapSnapshot]⟩

lemma insertByScore_perm (c : Candidate) :
    ∀ (l : List Candidate), List.Perm (insertByScore c l) (c :: l) := by
  intro l
  induction l with
  | nil => exact List.Perm.refl _
  | cons d ds ih =>
    by_cases h : c.score < d.score
    · simp only [insertByScore, if_pos h]
      exact (ih.cons d).trans (List.Perm.swap c d ds)
    · simp only [insertByScore, if_neg h]
      exact List.Perm.refl _

lemma sortCandidates_perm : ∀ (l : List Candidate), List.Perm (sortCandidates l) l := by
  intro l
  induction l with
  | nil => exact List.Perm.refl _
  | cons c cs ih =>
    exact (insertByScore_perm c (sortCandidates cs)).trans (ih.cons c)

lemma insertByScore_pairwise (c : Candidate) : ∀ {l : List Candidate},
    l.Pairwise (fun a b => b.score ≤ a.score) →
    (insertByScore c l).Pairwise (fun a b => b.score ≤ a.score) := by
  intro l
  induction l with
  | nil => intro _; simp [insertByScore]
  | cons d ds ih =>
    intro h
    rw [List.pairwise_cons] at h
    by_cases hc : c.score < d.score
    · simp only [insertByScore, if_pos hc]
      rw [List.pairwise_cons]
      refine ⟨fun b hb => ?_, ih h.2⟩
      rcases List.mem_cons.1 ((insertByScore_perm c ds).mem_iff.1 hb) with hm | hm
      · subst hm; exact le_of_lt hc
      · exact h.1 b hm
    · simp only [insertByScore, if_neg hc]
      push_neg at hc
      rw [List.pairwise_cons]
      refine ⟨fun b hb => ?_, List.pairwise_cons.2 ⟨h.1, h.2⟩⟩
      rcases List.mem_cons.1 hb with hm | hm
      · subst hm; exact hc
      · exact (h.1 b hm).trans hc

lemma sortCandidates_pairwise :
    ∀ (l : List Candidate),
    (sortCandidates l).Pairwise (fun a b => b.score ≤ a.score) := by
  intro l
  induction l with
  | nil => simp [sortCandidates]
  | cons c cs ih => exact insertByScore_pairwise c ih

lemma filter_insertByScore (c : Candidate) (q : ℚ) : ∀ (l : List Candidate),
    (insertByScore c l).filter (fun x => decide (x.score = q))
      = ((c :: l).filter (fun x => decide (x.score = q))) := by
  intro l
  induction l with
  | nil => rfl
  | cons d ds ih =>
    by_cases hc : c.score < d.score
    · simp only [insertByScore, if_pos hc]
      by_cases hcq : c.score = q
      · have hdq : ¬ d.score = q := fun h => absurd hc (by rw [hcq, h]; exact lt_irrefl q)
        simp [List.filter_cons, hcq, hdq, ih]
      · by_cases hdq : d.score = q
        · simp [List.filter_cons, hcq, hdq, ih]
        · simp [List.filter_cons, hcq, hdq, ih]
    · simp only [insertByScore, if_neg hc]

lemma filter_sortCandidates (q : ℚ) : ∀ (l : List Candidate),
    (sortCandidates l).filter (fun x => decide (x.score = q))
      = l.filter (fun x => decide (x.score = q)) := by
  intro l
  induction l with
  | nil => rfl
  | cons c cs ih =>
    show (insertByScore c (sortCandidates cs)).filter _ = _
    rw [filter_insertByScore]
    by_cases hcq : c.score = q
    · simp [List.filter_cons, hcq, ih]
    · simp [List.filter_cons, hcq, ih]

lemma open_position_mem (e : Engine) (s : String) (d : ℤ) (p : ℚ)
    (sg : List String) (sc : ℚ) {st : String × Trade}
    (h : st ∈ (open_position e s d p sg sc).2.open_positions) :
    st ∈ e.open_positions ∨ st.2.score = sc := by
  simp only [open_position] at h
  split_ifs at h with h1 h2 h3 h4
  · exact Or.inl h
  · exact Or.inl h
  · exact Or.inl h
  · exact Or.inl h
  · rcases List.mem_append.1 h with hm | hm
    · exact Or.inl hm
    · rw [List.mem_singleton] at hm
      subst hm
      exact Or.inr rfl

lemma entryLoop_open_scores : ∀ (cs : List Candidate) (e : Engine)
    (st : String × Trade),
    st ∈ (entryLoop e cs).open_positions →
    st ∈ e.open_positions ∨ 70 ≤ st.2.score := by
  intro cs
  induction cs with
  | nil => intro e st h; exact Or.inl h
  | cons r rs ih =>
    intro e st h
    simp only [entryLoop] at h
    split_ifs at h with h1 h2 h3
    · exact Or.inl h
    · exact ih e st h
    · rcases ih _ st h with hm | hs
      · rcases open_position_mem e r.symbol r.date r.price r.signals r.score hm
          with hm2 | hsc
        · exact Or.inl hm2
        · exact Or.inr (hsc ▸ h3)
      · exact Or.inr hs
    · exact ih e st h

/-- Claim C7 (amended). The per-day screening sort orders candidates by
descending score only; it is stable, so equal scores keep their original
(universe) order — not symbol lexical order. The sorted output is a
permutation of the input, and the entry loop over it opens only
candidates whose score is at least the entry threshold 70 (positions open
after the loop were either already open or carry a score ≥ 70); failed
opens are simply passed over. -/
theorem screening_sort_and_entry (l : List Candidate) (q : ℚ) (e : Engine)
    (cs : List Candidate) (st : String × Trade) :
    (sortCandidates l).Pairwise (fun a b => b.score ≤ a.score) ∧
    (sortCandidates l).filter (fun x => decide (x.score = q))
      = l.filter (fun x => decide (x.score = q)) ∧
    List.Perm (sortCandidates l) l ∧
    (st ∈ (entryLoop e cs).open_positions →
      st ∈ e.open_positions ∨ 70 ≤ st.2.score) :=
  ⟨sortCandidates_pairwise l, filter_sortCandidates q l, sortCandidates_perm l,
    entryLoop_open_scores cs e st⟩

/-- Claim C7 witness: a trade open after an (empty) entry loop was already
open or scored at least 70. -/
theorem screening_sort_and_entry_witness :
    ("7203.T", sampleTrade) ∈ engineWithPos.open_positions ∨
      70 ≤ ("7203.T", sampleTrade).2.score :=
  (screening_sort_and_entry [] 0 engineWithPos [] ("7203.T", sampleTrade)).2.2.2
    (by simp [entryLoop, engineWithPos])

/-- Claim C7 counterexample: two candidates tie at score 80; the sort keeps
the input order (`9984.T` before `6098.T`) even though `6098.T` is
lexically smaller, so ties are not broken by symbol lexical order. -/
theorem sort_tie_break_cx :
    (sortCandidates [candLate, candEarly]).map Candidate.symbol
      = ["9984.T", "6098.T"] ∧
    candEarly.symbol.data < candLate.symbol.data ∧
    candEarly.score = candLate.score := by
  refine ⟨?_, by decide, by norm_num [candEarly, candLate]⟩
  norm_num [sortCandidates, insertByScore, candLate, candEarly]

/-- Claim C8. Exit conditions are evaluated in the fixed order take-profit,
then stop-loss, then time-limit, producing at most one reason; in
particular when both the take-profit and the time-limit conditions hold
on the same day the assigned reason is `take_profit`. The only possible
reasons are the three strings, and within a day every exit execution
precedes the entry evaluation (`processDay` runs the entry phase on the
state left by the exit phase). -/
theorem exit_priority (cfg : BacktestConfig) (ep cp : ℚ) (d : ℤ)
    (e : Engine) (dt : ℤ) (pr : String → Option ℚ) (cs : List Candidate) :
    (0 < ep → cfg.take_profit ≤ (cp - ep) / ep →
      cfg.holding_period_limit ≤ d →
      exitReason cfg ep cp d = some "take_profit") ∧
    (∀ r, exitReason cfg ep cp d = some r →
      r = "take_profit" ∨ r = "stop_loss" ∨ r = "time_limit") ∧
    processDay e dt pr cs = entryPhase (exitPhase e dt pr) cs := by
  refine ⟨?_, ?_, rfl⟩
  · intro h0 htp _
    simp only [exitReason, if_pos h0, if_pos htp]
  · intro r h
    simp only [exitReason] at h
    split_ifs at h with h0 h1 h2 h3
    · exact Or.inl (Option.some.inj h).symm
    · exact Or.inr (Or.inl (Option.some.inj h).symm)
    · exact Or.inr (Or.inr (Option.some.inj h).symm)

/-- Claim C8 witness: entry at 1000, price 1100 (10% ≥ 5% take-profit) on
day 10 (≥ 5-day limit, so the time-limit condition holds too): the
assigned reason is `take_profit`. -/
theorem exit_priority_witness :
    exitReason ({} : BacktestConfig) 1000 1100 10 = some "take_profit" :=
  (exit_priority {} 1000 1100 10 engineMain 0 (fun _ => none) []).1
    (by norm_num) (by norm_num) (by norm_num)

lemma close_position_effect (e : Engine) {s : String} {t : Trade}
    (hl : e.open_positions.lookup s = some t) (d : ℤ) (p : ℚ) (r : String) :
    (close_position e s d p r).open_positions
      = e.open_positions.filter (fun st => decide (st.1 ≠ s)) ∧
    ∃ ct : Trade, (close_position e s d p r).trades = e.trades ++ [ct] ∧
      ct.symbol = t.symbol ∧ ct.exit_reason = r ∧ ct.exit_date = some d := by
  simp only [close_position, hl]
  refine ⟨trivial, _, rfl, rfl, rfl, rfl⟩

lemma liquidation_fold (d : ℤ) (f : String → Option ℚ) :
    ∀ (l : List (String × Trade)) (e : Engine),
    (e.open_positions.map Prod.fst).Nodup →
    (∀ st ∈ e.open_positions, st.2.symbol = st.1) →
    (∀ st ∈ l, st ∈ e.open_positions) →
    (l.map Prod.fst).Nodup →
    (∀ st ∈ l, (f st.1).isSome) →
    (liquidateFrom d f e l).open_positions
      = e.open_positions.filter (fun st => decide (st.1 ∉ l.map Prod.fst)) ∧
    (∀ x ∈ e.trades, x ∈ (liquidateFrom d f e l).trades) ∧
    (∀ st ∈ l, ∃ ct, ct ∈ (liquidateFrom d f e l).trades ∧ ct.symbol = st.1 ∧
      ct.exit_reason = "backtest_end" ∧ ct.exit_date = some d) := by
  intro l
  induction l with
  | nil =>
    intro e hnd hsym hsub hlnd hav
    refine ⟨?_, fun x hx => hx, fun st hst => absurd hst (List.not_mem_nil st)⟩
    simp only [liquidateFrom, List.foldl_nil]
    exact (List.filter_eq_self.2 (fun a _ => by simp)).symm
  | cons hd rest ih =>
    intro e hnd hsym hsub hlnd hav
    obtain ⟨s, t0⟩ := hd
    have hmem : (s, t0) ∈ e.open_positions := hsub _ (List.mem_cons_self _ _)
    obtain ⟨p, hp⟩ := Option.isSome_iff_exists.1 (hav _ (List.mem_cons_self _ _))
    have hl : e.open_positions.lookup s = some t0 := mem_lookup_of_nodup hnd hmem
    have heff := close_position_effect e hl d p "backtest_end"
    have hstep : liquidateFrom d f e ((s, t0) :: rest)
        = liquidateFrom d f (close_position e s d p "backtest_end") rest := by
      simp only [liquidateFrom, List.foldl_cons, hp]
    have hsrest : s ∉ rest.map Prod.fst := by
      rw [List.map_cons, List.nodup_cons] at hlnd
      exact hlnd.1
    have hnd1 : ((close_position e s d p "backtest_end").open_positions.map
        Prod.fst).Nodup := by
      rw [heff.1]
      exact ((List.filter_sublist _).map Prod.fst).nodup hnd
    have hsym1 : ∀ st ∈ (close_position e s d p "backtest_end").open_positions,
        st.2.symbol = st.1 := by
      intro st hst
      rw [heff.1] at hst
      exact hsym st (List.mem_filter.1 hst).1
    have hsub1 : ∀ st ∈ rest,
        st ∈ (close_position e s d p "backtest_end").open_positions := by
      intro st hst
      rw [heff.1, List.mem_filter]
      refine ⟨hsub st (List.mem_cons_of_mem _ hst), ?_⟩
      simp only [ne_eq, decide_eq_true_eq]
      intro heq
      exact hsrest (heq ▸ List.mem_map.2 ⟨st, hst, rfl⟩)
    have hlnd1 : (rest.map Prod.fst).Nodup := by
      rw [List.map_cons, List.nodup_cons] at hlnd
      exact hlnd.2
    have hav1 : ∀ st ∈ rest, (f st.1).isSome :=
      fun st hst => hav st (List.mem_cons_of_mem _ hst)
    have hih := ih (close_position e s d p "backtest_end") hnd1 hsym1 hsub1
      hlnd1 hav1
    refine ⟨?_, ?_, ?_⟩
    · rw [hstep, hih.1, heff.1, List.filter_filter]
      apply List.filter_congr
      intro x _
      by_cases h1 : x.1 = s <;>
        by_cases h2 : x.1 ∈ rest.map Prod.fst <;>
        simp [h1, h2]
    · intro x hx
      rw [hstep]
      apply hih.2.1
      rcases heff.2 with ⟨ct, hct, _⟩
      rw [hct]
      exact List.mem_append_left _ hx
    · intro st hst
      rw [hstep]
      rcases List.mem_cons.1 hst with h1 | h1
      · rcases heff.2 with ⟨ct, hct, hcts, hctr, hctd⟩
        refine ⟨ct, ?_, ?_, hctr, hctd⟩
        · apply hih.2.1
          rw [hct]
          exact List.mem_append_right _ (List.mem_singleton.2 rfl)
        · subst h1
          rw [hcts]
          exact hsym _ hmem
      · obtain ⟨ct, hct⟩ := hih.2.2 st h1
        exact ⟨ct, hct.1, hct.2.1, hct.2.2.1, hct.2.2.2⟩

/-- Claim C9. When the simulation reaches the end date and a final price is
available for every symbol still open (its "final available price"), the
forced-liquidation loop closes every remaining position: afterwards
`open_positions` is empty, and for each formerly open position a closed
trade with `exit_reason = "backtest_end"` and the end date as exit date
has been appended to the trade history, so it contributes to the trade
statistics. -/
theorem backtest_end_liquidation (e : Engine) (d : ℤ) (f : String → Option ℚ)
    (hnd : (e.open_positions.map Prod.fst).Nodup)
    (hsym : ∀ st ∈ e.open_positions, st.2.symbol = st.1)
    (hav : ∀ st ∈ e.open_positions, (f st.1).isSome)
    (st : String × Trade) (hst : st ∈ e.open_positions) :
    (finalLiquidation e d f).open_positions = [] ∧
    ∃ ct, ct ∈ (finalLiquidation e d f).trades ∧ ct.symbol = st.1 ∧
      ct.exit_reason = "backtest_end" ∧ ct.exit_date = some d := by
  have h := liquidation_fold d f e.open_positions e hnd hsym
    (fun x hx => hx) hnd hav
  have hfl : finalLiquidation e d f = liquidateFrom d f e e.open_positions := rfl
  constructor
  · rw [hfl, h.1]
    apply List.filter_eq_nil_iff.2
    intro a ha
    simp only [decide_eq_true_eq, not_not]
    exact List.mem_map.2 ⟨a, ha, rfl⟩
  · obtain ⟨ct, hct⟩ := h.2.2 st hst
    exact ⟨ct, hfl ▸ hct.1, hct.2.1, hct.2.2.1, hct.2.2.2⟩

/-- Claim C9 witness: an engine with one open position and a total final
price lookup — the liquidation empties the open positions and records a
`backtest_end` trade for the open symbol. -/
theorem backtest_end_liquidation_witness :
    (finalLiquidation engineWithPos 5 (fun _ => some 1050)).open_positions = [] ∧
    ∃ ct, ct ∈ (finalLiquidation engineWithPos 5 (fun _ => some 1050)).trades ∧
      ct.symbol = ("7203.T", sampleTrade).1 ∧
      ct.exit_reason = "backtest_end" ∧ ct.exit_date = some 5 :=
  backtest_end_liquidation engineWithPos 5 (fun _ => some 1050)
    (by simp [engineWithPos])
    (by intro st hst
        simp only [engineWithPos, List.mem_singleton] at hst
        subst hst
        rfl)
    (by intro st _; rfl)
    ("7203.T", sampleTrade)
    (by simp [engineWithPos])

/-- Claim C10. The result aggregation guards its divisions: the Sharpe
ratio is 0 whenever volatility is 0, the profit factor is 0 whenever
there are no losing trades, and the win rate is 0 whenever there are no
trades; each value is produced by a guarded branch instead of a division
by zero. -/
theorem degenerate_stats_guarded (tr : List Trade) (ar vol : ℚ) :
    (vol = 0 → sharpeOf ar vol = 0) ∧
    (losingTrades tr = [] → profit_factor tr = 0) ∧
    (tr = [] → win_rate tr = 0) := by
  refine ⟨fun h => ?_, fun h => ?_, fun h => ?_⟩
  · simp [sharpeOf, h]
  · simp [profit_factor, h]
  · simp [win_rate, h]

/-- Claim C10 witness: zero volatility, an empty losing-trade list and an
empty trade list give Sharpe 0, profit factor 0 and win rate 0. -/
theorem degenerate_stats_guarded_witness :
    sharpeOf 5 0 = 0 ∧ profit_factor [] = 0 ∧ win_rate [] = 0 :=
  ⟨(degenerate_stats_guarded [] 5 0).1 rfl,
   (degenerate_stats_guarded [] 5 0).2.1 rfl,
   (degenerate_stats_guarded [] 5 0).2.2 rfl⟩

end ThemeScreening
